import Mathlib

/-!
Shallow embedding of the cakesync2 sync scripts: window planning over day
ranges, paginated report fetching, row normalization and key filtering,
per-key aggregation, and the two storage reconciliation policies
(replace-snapshot upsert and accumulate-lifetime read-modify-write).
JavaScript numbers are modeled as integers, with a separate `nan`
constructor for the `NaN` produced by `Number(...)` on non-numeric input.
-/

namespace CakeSync

/-- A JavaScript numeric value: an integer or `NaN`.  `NaN` is absorbing
for addition, as in JS. -/
inductive JsNum where
  | num (n : Int)
  | nan
deriving DecidableEq, Repr

/-- JS `+` on numbers: `NaN` propagates. -/
def JsNum.add : JsNum → JsNum → JsNum
  | .num a, .num b => .num (a + b)
  | _, _ => .nan

instance : Add JsNum := ⟨JsNum.add⟩

instance : Zero JsNum := ⟨JsNum.num 0⟩

instance : AddCommMonoid JsNum where
  add_assoc a b c := by
    cases a <;> cases b <;> cases c <;>
      first | rfl | exact congrArg JsNum.num (Int.add_assoc _ _ _)
  zero_add a := by
    cases a <;> first | rfl | exact congrArg JsNum.num (Int.zero_add _)
  add_zero a := by
    cases a <;> first | rfl | exact congrArg JsNum.num (Int.add_zero _)
  add_comm a b := by
    cases a <;> cases b <;>
      first | rfl | exact congrArg JsNum.num (Int.add_comm _ _)
  nsmul := nsmulRec

/-- The per-key metric triple accumulated by the run, in the field order of
the object literals in the source (`{revenue, clicks, conversions}`). -/
structure Agg where
  revenue : JsNum
  clicks : JsNum
  conversions : JsNum
deriving DecidableEq, Repr

/-- Componentwise addition of metric triples. -/
def Agg.add (a b : Agg) : Agg :=
  ⟨a.revenue + b.revenue, a.clicks + b.clicks, a.conversions + b.conversions⟩

instance : Add Agg := ⟨Agg.add⟩

instance : Zero Agg := ⟨⟨0, 0, 0⟩⟩

instance : AddCommMonoid Agg where
  add_assoc a b c := by
    show Agg.add (Agg.add a b) c = Agg.add a (Agg.add b c)
    simp [Agg.add, add_assoc]
  zero_add a := by
    show Agg.add ⟨0, 0, 0⟩ a = a
    cases a
    simp [Agg.add]
  add_zero a := by
    show Agg.add a ⟨0, 0, 0⟩ = a
    cases a
    simp [Agg.add]
  add_comm a b := by
    show Agg.add a b = Agg.add b a
    simp [Agg.add, add_comm]
  nsmul := nsmulRec

/-- A parsed JSON/XML value as the `fast-xml-parser` output exposes it.
`null` stands for both JS `null` and `undefined` (they behave identically
in every code path the scripts use). -/
inductive JsonVal where
  | null
  | bool (b : Bool)
  | num (n : Int)
  | str (s : String)
  | arr (elems : List JsonVal)
  | obj (fields : List (String × JsonVal))
deriving Repr

/-- Strip leading and trailing whitespace from a character list. -/
def trimChars (l : List Char) : List Char :=
  ((l.dropWhile Char.isWhitespace).reverse.dropWhile Char.isWhitespace).reverse

/-- JS `String.prototype.trim`, implemented structurally over the
character list so that it evaluates inside the kernel. -/
def jsTrim (s : String) : String :=
  ⟨trimChars s.data⟩

/-- Parse a non-empty all-digit character list as a natural number. -/
def parseNatDigits : List Char → Option Nat
  | [] => none
  | l => go l 0
where
  go : List Char → Nat → Option Nat
    | [], acc => some acc
    | c :: rest, acc =>
      if c.isDigit then go rest (acc * 10 + (c.toNat - '0'.toNat)) else none

/-- The `v["#text"]` access of the source: the value of the first field
named `#text`, when that value is a string (`typeof v["#text"] === "string"`). -/
def objText (fields : List (String × JsonVal)) : Option String :=
  match fields.find? (fun p => p.1 == "#text") with
  | some (_, .str s) => some s
  | _ => none

/-- Embedding of `normalizeText` from the source: strings are trimmed,
numbers stringified, a string `#text` payload is trimmed, single-valued
wrappers (objects with one field, arrays with one element — both are
`typeof "object"` in JS and `Object.values` yields the single child)
recurse, and everything else yields the empty string. -/
def normalizeText : JsonVal → String
  | .null => ""
  | .str s => jsTrim s
  | .num n => toString n
  | .bool _ => ""
  | .arr [] => ""
  | .arr [v] => normalizeText v
  | .arr (_ :: _ :: _) => ""
  | .obj [q] => (objText [q]).elim (normalizeText q.2) jsTrim
  | .obj fields => (objText fields).elim "" jsTrim

/-- One character of the `[A-Z0-9]` class under the `/i` flag. -/
def isIdChar (c : Char) : Bool :=
  ('A' ≤ c && c ≤ 'Z') || ('a' ≤ c && c ≤ 'z') || ('0' ≤ c && c ≤ '9')

/-- Case-insensitive character comparison, as the `/i` regex flag does. -/
def charCI (a b : Char) : Bool := a.toLower == b.toLower

/-- Embedding of `SPARK_ID_REGEX.test`: the anchored, case-insensitive
pattern `SPK-[A-Z0-9]{4}-[A-Z0-9]{4}`, checked over the thirteen
characters of the candidate key. -/
def sparkIdTest (s : String) : Bool :=
  match s.toList with
  | [c1, c2, c3, d1, g1, g2, g3, g4, d2, h1, h2, h3, h4] =>
    charCI c1 'S' && charCI c2 'P' && charCI c3 'K' &&
    d1 == '-' && d2 == '-' &&
    isIdChar g1 && isIdChar g2 && isIdChar g3 && isIdChar g4 &&
    isIdChar h1 && isIdChar h2 && isIdChar h3 && isIdChar h4
  | _ => false

/-- JS `??`: the right operand replaces `null`/`undefined` only. -/
def jsCoalesce (v d : JsonVal) : JsonVal :=
  match v with
  | .null => d
  | _ => v

/-- JS `Number(...)` on a parsed value: numbers pass through, `null` and
the empty (trimmed) string give `0`, numeric strings parse, booleans
coerce, singleton arrays coerce through their element, and everything
else is `NaN`. -/
def jsNumber : JsonVal → JsNum
  | .null => .num 0
  | .num n => .num n
  | .bool b => .num (if b then 1 else 0)
  | .str s =>
    match trimChars s.data with
    | [] => .num 0
    | '-' :: rest =>
      match parseNatDigits rest with
      | some n => .num (-(n : Int))
      | none => .nan
    | '+' :: rest =>
      match parseNatDigits rest with
      | some n => .num n
      | none => .nan
    | t =>
      match parseNatDigits t with
      | some n => .num n
      | none => .nan
  | .arr l =>
    match l with
    | [] => .num 0
    | [v] => jsNumber v
    | _ => .nan
  | .obj _ => .nan

/-- One raw row of a report page, with the four fields the scripts read.
A field absent from the payload is represented by `JsonVal.null`. -/
structure RawRow where
  sub_id : JsonVal
  clicks : JsonVal
  conversions : JsonVal
  revenue : JsonVal

/-- A canonical normalized record: validated key plus metric triple. -/
structure CanonRecord where
  key : String
  val : Agg
deriving DecidableEq, Repr

/-- The row-normalization step of the per-row loop: extract and test the
key, and coerce the three numeric fields with `Number(r.x ?? 0)`.  Rows
whose key fails the pattern are dropped (`none`). -/
def normalizeRow (r : RawRow) : Option CanonRecord :=
  let subId := normalizeText r.sub_id
  if sparkIdTest subId then
    some ⟨subId, ⟨jsNumber (jsCoalesce r.revenue (.num 0)),
                  jsNumber (jsCoalesce r.clicks (.num 0)),
                  jsNumber (jsCoalesce r.conversions (.num 0))⟩⟩
  else none

/-- The `totals` JS `Map`, as an insertion-ordered association list. -/
abbrev TotalsMap := List (String × Agg)

/-- `totals.get(k)`: the value of the first (and, for maps built by the
run, only) entry with key `k`. -/
def mapGet (m : TotalsMap) (k : String) : Option Agg :=
  (m.find? (fun p => p.1 == k)).map (fun p => p.2)

/-- `totals.set(k, v)`: update the existing entry in place, else append. -/
def mapSet (m : TotalsMap) (k : String) (v : Agg) : TotalsMap :=
  if m.any (fun p => p.1 == k) then
    m.map (fun p => if p.1 == k then (k, v) else p)
  else m ++ [(k, v)]

/-- The accumulation rule of the per-row loop: read the previous triple
(defaulting to zeros) and store the componentwise sum. -/
def accumStep (m : TotalsMap) (c : CanonRecord) : TotalsMap :=
  let prev := (mapGet m c.key).getD 0
  mapSet m c.key (prev + c.val)

/-- Accumulate a sequence of canonical records into the totals map. -/
def accumAll (m : TotalsMap) (l : List CanonRecord) : TotalsMap :=
  l.foldl accumStep m

/-- The body of `for (const r of rows)`: normalize, and accumulate the
record when it was kept. -/
def processRow (m : TotalsMap) (r : RawRow) : TotalsMap :=
  match normalizeRow r with
  | some c => accumStep m c
  | none => m

/-- One page response, as the scripts see it after parsing: `none` models
an absent (or falsy) rows container, `some rows` models the rows array
(a lone non-array node having been wrapped into a singleton array). -/
abbrev PageResp := Option (List RawRow)

/-- The inner `while (true)` pagination loop for one window.  The script
of responses lists what the client returns to successive requests; an
exhausted script behaves as an absent rows container.  Returns the final
totals map and the 1-based `start_at_row` offset of every request issued. -/
def processPages (pageSize : Nat) : TotalsMap → Nat → List PageResp → TotalsMap × List Nat
  | m, offset, [] => (m, [offset])
  | m, offset, resp :: rest =>
    match resp with
    | none => (m, [offset])
    | some rows =>
      if rows.length = 0 then (m, [offset])
      else
        let m1 := rows.foldl processRow m
        if rows.length < pageSize then (m1, [offset])
        else
          let next := processPages pageSize m1 (offset + pageSize) rest
          (next.1, offset :: next.2)

/-- The report client, scripted: for each window it lists the page
responses returned to the successive requests of the pagination loop. -/
structure EngineClient where
  pagesFor : Int × Int → List PageResp

/-- Drain one window: run the pagination loop and tag each request with
the window bounds. -/
def processWindow (c : EngineClient) (pageSize : Nat) (m : TotalsMap) (w : Int × Int) :
    TotalsMap × List (Int × Int × Nat) :=
  let r := processPages pageSize m 1 (c.pagesFor w)
  (r.1, r.2.map (fun o => (w.1, w.2, o)))

/-- The outer loop over windows, threading the totals map and collecting
the request log. -/
def runWindows (c : EngineClient) (pageSize : Nat) :
    TotalsMap → List (Int × Int) → TotalsMap × List (Int × Int × Nat)
  | m, [] => (m, [])
  | m, w :: ws =>
    let r1 := processWindow c pageSize m w
    let r2 := runWindows c pageSize r1.1 ws
    (r2.1, r1.2 ++ r2.2)

/-- The window-planning loop, fuel-indexed for structural recursion: from
`cursor`, each window ends at `min(cursor + (span - 1), globalEnd)` and
the next window starts the day after.  Days are integers.  The fuel is
chosen so that it never runs out for `span ≥ 1` (each step advances the
cursor by at least one day). -/
def planFuel : Nat → Int → Int → Nat → List (Int × Int)
  | 0, _, _, _ => []
  | fuel + 1, c, e, span =>
    if c ≤ e then
      let wEnd := min (c + ((span - 1 : Nat) : Int)) e
      (c, wEnd) :: planFuel fuel (wEnd + 1) e span
    else []

/-- The window plan for the range `[s, e]` with maximum span `span` days. -/
def planWindows (s e : Int) (span : Nat) : List (Int × Int) :=
  planFuel (e + 1 - s).toNat s e span

/-- The whole fetch-and-aggregate phase of `run`: drain every planned
window.  Returns the final totals map and the request log. -/
def engineRun (c : EngineClient) (pageSize : Nat) (s e : Int) (span : Nat) :
    TotalsMap × List (Int × Int × Nat) :=
  runWindows c pageSize [] (planWindows s e span)

/-- The totals map produced by a run. -/
def engineTotals (c : EngineClient) (pageSize : Nat) (s e : Int) (span : Nat) : TotalsMap :=
  (engineRun c pageSize s e span).1

/-- The requests issued by a run, as (windowStart, windowEnd, offset). -/
def engineRequests (c : EngineClient) (pageSize : Nat) (s e : Int) (span : Nat) :
    List (Int × Int × Nat) :=
  (engineRun c pageSize s e span).2

/-- A row of the `cake_earnings_daily` table, as built by `rowsToUpsert`. -/
structure ReconRow where
  cake_affiliate_id : String
  date : String
  system2_revenue : JsNum
  clicks : JsNum
  conversions : JsNum
deriving DecidableEq, Repr

/-- Whether two rows collide on the upsert conflict key `(cake_affiliate_id, date)`. -/
def conflictEq (a b : ReconRow) : Bool :=
  a.cake_affiliate_id == b.cake_affiliate_id && a.date == b.date

/-- Upsert of one row with `onConflict: "cake_affiliate_id,date"`: an
existing row for the pair is fully overwritten, otherwise the row is
inserted. -/
def upsertRow (s : List ReconRow) (r : ReconRow) : List ReconRow :=
  if s.any (fun row => conflictEq row r) then
    s.map (fun row => if conflictEq row r then r else row)
  else s ++ [r]

/-- The multi-row upsert issued once at the end of the run. -/
def upsertAll (s : List ReconRow) (rs : List ReconRow) : List ReconRow :=
  rs.foldl upsertRow s

/-- `rowsToUpsert`: one row per totals entry, stamped with the snapshot date. -/
def buildRows (t : TotalsMap) (date : String) : List ReconRow :=
  t.map (fun kv => ⟨kv.1, date, kv.2.revenue, kv.2.clicks, kv.2.conversions⟩)

/-- The replace-snapshot engine: aggregate, then upsert all rows, or do
nothing when no valid key was seen (`if (!totals.size) return`). -/
def runReplace (c : EngineClient) (pageSize : Nat) (s e : Int) (span : Nat)
    (snapshotDate : String) (store : List ReconRow) : List ReconRow :=
  let t := engineTotals c pageSize s e span
  if t.isEmpty then store else upsertAll store (buildRows t snapshotDate)

/-- A row of the canonical `sparks` table used by the accumulate-lifetime
writer. -/
structure SparkRow where
  spk_code : String
  system2_revenue : JsNum
  system2_clicks : JsNum
  system2_conversions : JsNum
deriving DecidableEq, Repr

/-- JS `x || 0` on a stored numeric: `0` and `NaN` are falsy, so both
become `0`; every other number passes through. -/
def jsOr0 : JsNum → JsNum
  | .nan => .num 0
  | .num n => .num n

/-- `maybeSingle` on `spk_code`: the first stored row with that code. -/
def storeGet (st : List SparkRow) (k : String) : Option SparkRow :=
  st.find? (fun row => row.spk_code == k)

/-- The updated row written back for an existing spark: stored totals
(coerced with `|| 0`) plus this run's totals. -/
def updatedRow (ex : SparkRow) (v : Agg) : SparkRow :=
  { ex with
    system2_revenue := jsOr0 ex.system2_revenue + v.revenue
    system2_clicks := jsOr0 ex.system2_clicks + v.clicks
    system2_conversions := jsOr0 ex.system2_conversions + v.conversions }

/-- The `update ... eq("id", existing.id)` write: replace the fetched row
(the first row with the code) in place. -/
def replaceFirst (st : List SparkRow) (k : String) (newRow : SparkRow) : List SparkRow :=
  match st with
  | [] => []
  | row :: rest =>
    if row.spk_code == k then newRow :: rest else row :: replaceFirst rest k newRow

/-- One iteration of the merge loop: read the existing spark, update it
with the summed totals if present, insert a seeded row otherwise. -/
def lifetimeWriteKey (st : List SparkRow) (k : String) (v : Agg) : List SparkRow :=
  match storeGet st k with
  | some ex => replaceFirst st k (updatedRow ex v)
  | none => st ++ [⟨k, v.revenue, v.clicks, v.conversions⟩]

/-- The accumulate-lifetime merge over every totals entry, in map order. -/
def runLifetime (t : TotalsMap) (st : List SparkRow) : List SparkRow :=
  t.foldl (fun acc kv => lifetimeWriteKey acc kv.1 kv.2) st

/-- The accumulate-lifetime engine: aggregate, then merge each key, or do
nothing when no valid key was seen. -/
def runAccumulate (c : EngineClient) (pageSize : Nat) (s e : Int) (span : Nat)
    (st : List SparkRow) : List SparkRow :=
  let t := engineTotals c pageSize s e span
  if t.isEmpty then st else runLifetime t st

/-- A row with every field absent: its key normalizes to `""` and is dropped. -/
def blankRow : RawRow := ⟨.null, .null, .null, .null⟩

/-- A row with a given key, one click and zero conversions and revenue. -/
def vRow (k : String) : RawRow := ⟨.str k, .num 1, .num 0, .num 0⟩

/-- A full first page: one valid row among 500. -/
def pageA : List RawRow := vRow "SPK-AAAA-0001" :: List.replicate 499 blankRow

/-- A full second page: one valid row among 500. -/
def pageB : List RawRow := vRow "SPK-BBBB-0002" :: List.replicate 499 blankRow

/-- A short third page of 137 rows. -/
def pageC137 : List RawRow := vRow "SPK-CCCC-0003" :: List.replicate 136 blankRow

/-- A full third page of 500 rows. -/
def pageC500 : List RawRow := vRow "SPK-CCCC-0003" :: List.replicate 499 blankRow

/-- A scripted client returning a single one-row page for every window. -/
def oneRowClient : EngineClient := ⟨fun _ => [some [vRow "SPK-AAAA-0001"]]⟩

/-- A scripted client whose first response has no rows container. -/
def noRowsClient : EngineClient := ⟨fun _ => [none]⟩

/-- A raw row whose key is valid but whose `clicks` field holds a
non-numeric string. -/
def rowC5 : RawRow := ⟨.str "SPK-AAAA-BBBB", .str "abc", .null, .null⟩

/-- A canonical record used as concrete aggregation input. -/
def recA : CanonRecord := ⟨"SPK-AAAA-BBBB", ⟨.num 10, .num 3, .num 0⟩⟩

/-- A second canonical record with the same key. -/
def recB : CanonRecord := ⟨"SPK-AAAA-BBBB", ⟨.num 5, .num 2, .num 0⟩⟩

end CakeSync

namespace CakeSync

@[simp] theorem num_add_num (a b : Int) :
    JsNum.num a + JsNum.num b = JsNum.num (a + b) := rfl

@[simp] theorem nan_add (x : JsNum) : JsNum.nan + x = JsNum.nan := by
  cases x <;> rfl

@[simp] theorem add_nan (x : JsNum) : x + JsNum.nan = JsNum.nan := by
  cases x <;> rfl

theorem jsnum_zero_def : (0 : JsNum) = JsNum.num 0 := rfl

@[simp] theorem agg_add_def (a b : Agg) :
    a + b = ⟨a.revenue + b.revenue, a.clicks + b.clicks, a.conversions + b.conversions⟩ := rfl

theorem agg_zero_def : (0 : Agg) = ⟨JsNum.num 0, JsNum.num 0, JsNum.num 0⟩ := rfl

theorem normalizeText_wrap (k : String) (v : JsonVal) :
    normalizeText (.obj [(k, v)]) = normalizeText v := by
  by_cases hk : k = "#text"
  · subst hk
    cases v <;> simp [normalizeText, objText, List.find?]
  · have hb : (k == "#text") = false := by simp [hk]
    cases v <;> simp [normalizeText, objText, List.find?, hb]

theorem normalizeText_wrapChain (ks : List String) (v : JsonVal) :
    normalizeText (ks.foldr (fun k acc => JsonVal.obj [(k, acc)]) v) = normalizeText v := by
  induction ks with
  | nil => rfl
  | cons k ks ih => simp only [List.foldr_cons, normalizeText_wrap, ih]

set_option maxRecDepth 10000

/-- C3: with pageSize 500, a script of page sizes [500, 500, 137] makes the
pagination loop issue exactly three requests at 1-based offsets 1, 501, 1001,
process all three pages (each page's valid row reaches the totals), and stop
after the short third page; a script of [500, 500, 500] followed by an empty
page makes it issue exactly four requests at offsets 1, 501, 1001, 1501. -/
theorem C3_page_fetcher :
    (processPages 500 [] 1 [some pageA, some pageB, some pageC137]).2 = [1, 501, 1001] ∧
    (processPages 500 [] 1 [some pageA, some pageB, some pageC137]).1 =
      [("SPK-AAAA-0001", ⟨.num 0, .num 1, .num 0⟩),
       ("SPK-BBBB-0002", ⟨.num 0, .num 1, .num 0⟩),
       ("SPK-CCCC-0003", ⟨.num 0, .num 1, .num 0⟩)] ∧
    (processPages 500 [] 1 [some pageA, some pageB, some pageC500, some []]).2 =
      [1, 501, 1001, 1501] := by
  decide

/-- C4 counterexample: the claim asserts that a wrapper nested two or more
levels deep yields the empty string, but `normalizeText` recurses through
nested single-valued wrappers, so a two-level wrapper yields the inner
trimmed payload, which is not empty. -/
theorem C4_counterexample :
    normalizeText (.obj [("a", .obj [("#text", .str " SPK-AB12-9F3D ")])]) = "SPK-AB12-9F3D" ∧
    ("SPK-AB12-9F3D" : String) ≠ "" := by decide

/-- C4 (amended): key extraction returns the trimmed string for a plain
string, the decimal string form for a number, the trimmed text payload when
the first `#text` field holds a string, and recurses through single-valued
wrappers (objects with one field, arrays with one element) to arbitrary
depth; null, booleans, arrays of length ≠ 1, and multi-field objects without
a string `#text` payload yield the empty string. -/
theorem C4_normalizeText_cases :
    (normalizeText .null = "") ∧
    (∀ b, normalizeText (.bool b) = "") ∧
    (∀ s, normalizeText (.str s) = jsTrim s) ∧
    (∀ n : Int, normalizeText (.num n) = toString n) ∧
    (∀ fields s, objText fields = some s → normalizeText (.obj fields) = jsTrim s) ∧
    (∀ k v, normalizeText (.obj [(k, v)]) = normalizeText v) ∧
    (∀ v, normalizeText (.arr [v]) = normalizeText v) ∧
    (∀ l : List JsonVal, l.length ≠ 1 → normalizeText (.arr l) = "") ∧
    (∀ fields, objText fields = none → fields.length ≠ 1 → normalizeText (.obj fields) = "") ∧
    (∀ (ks : List String) (v : JsonVal),
      normalizeText (ks.foldr (fun k acc => JsonVal.obj [(k, acc)]) v) = normalizeText v) := by
  refine ⟨rfl, fun b => rfl, fun s => rfl, fun n => rfl, ?_, normalizeText_wrap, fun v => rfl, ?_, ?_, normalizeText_wrapChain⟩
  · intro fields s h
    match fields with
    | [] => simp [objText] at h
    | [q] => simp [normalizeText, h]
    | a :: b :: rest => simp [normalizeText, h]
  · intro l hl
    match l with
    | [] => rfl
    | [v] => exact absurd rfl hl
    | a :: b :: rest => rfl
  · intro fields h hl
    match fields with
    | [] => simp [normalizeText, h]
    | [q] => exact absurd rfl hl
    | a :: b :: rest => simp [normalizeText, h]

/-- C6: a raw row is kept exactly when its extracted key matches the
anchored, case-insensitive `SPK-XXXX-XXXX` pattern; `"SPK-AB12-9f3D"`
matches, `"SPK-AB12-9f3"` does not, a key wrapped as
`{"#text": " SPK-AB12-9F3D "}` is kept with the trimmed key, and a dropped
row leaves the totals untouched. -/
theorem C6_key_filter :
    (∀ r : RawRow, (normalizeRow r).isSome = sparkIdTest (normalizeText r.sub_id)) ∧
    sparkIdTest "SPK-AB12-9f3D" = true ∧
    sparkIdTest "SPK-AB12-9f3" = false ∧
    normalizeRow ⟨.obj [("#text", .str " SPK-AB12-9F3D ")], .null, .null, .null⟩ =
      some ⟨"SPK-AB12-9F3D", ⟨.num 0, .num 0, .num 0⟩⟩ ∧
    (∀ m r, normalizeRow r = none → processRow m r = m) := by
  refine ⟨?_, by decide, by decide, by decide, ?_⟩
  · intro r
    unfold normalizeRow
    cases h : sparkIdTest (normalizeText r.sub_id) <;> simp [h]
  · intro m r h
    simp [processRow, h]

theorem mapGet_cons (p : String × Agg) (m : TotalsMap) (k : String) :
    mapGet (p :: m) k = if p.1 = k then some p.2 else mapGet m k := by
  by_cases h : p.1 = k
  · simp [mapGet, List.find?, h]
  · have hb : (p.1 == k) = false := by simp [h]
    simp [mapGet, List.find?, hb, h]

theorem any_false_get_none (m : TotalsMap) (k : String)
    (h : m.any (fun p => p.1 == k) = false) : mapGet m k = none := by
  induction m with
  | nil => rfl
  | cons p m ih =>
    simp only [List.any_cons, Bool.or_eq_false_iff] at h
    rw [mapGet_cons]
    have hp : ¬(p.1 = k) := by
      intro he
      simp [he] at h
    simp [hp, ih h.2]

theorem mapGet_replace (m : TotalsMap) (k : String) (v : Agg) (k' : String) :
    mapGet (m.map (fun p => if p.1 == k then (k, v) else p)) k' =
      if k' = k ∧ m.any (fun p => p.1 == k) = true then some v else mapGet m k' := by
  induction m with
  | nil => simp [mapGet]
  | cons p m ih =>
    rw [List.map_cons]
    by_cases hp : p.1 = k
    · have hb : (p.1 == k) = true := by simp [hp]
      rw [hb]
      simp only [if_true]
      rw [mapGet_cons, mapGet_cons, List.any_cons, hb]
      by_cases hk : k' = k
      · simp [hk]
      · have hk2 : ¬(k = k') := fun h => hk h.symm
        have hpk : ¬(p.1 = k') := hp ▸ hk2
        rw [ih]
        simp [hk, hk2, hpk]
    · have hb : (p.1 == k) = false := by simp [hp]
      rw [hb]
      simp only [Bool.false_eq_true, if_false]
      rw [mapGet_cons, mapGet_cons, List.any_cons, hb]
      by_cases hpk : p.1 = k'
      · have hkk : ¬(k' = k) := fun h => hp (hpk.trans h)
        simp [hpk, hkk]
      · rw [ih]
        have hor : (false || m.any fun p => p.1 == k) = (m.any fun p => p.1 == k) :=
          Bool.false_or _
        rw [hor]
        simp [hpk]

theorem mapGet_append_single (m : TotalsMap) (k : String) (v : Agg) (k' : String) :
    mapGet (m ++ [(k, v)]) k' =
      match mapGet m k' with
      | some a => some a
      | none => if k' = k then some v else none := by
  induction m with
  | nil =>
    rw [List.nil_append, mapGet_cons]
    by_cases h : k' = k
    · simp [mapGet, h]
    · have h2 : ¬(k = k') := fun e => h e.symm
      simp [mapGet, h, h2]
  | cons p m ih =>
    rw [List.cons_append, mapGet_cons, mapGet_cons]
    by_cases hp : p.1 = k' <;> simp [hp, ih]

theorem mapGet_mapSet (m : TotalsMap) (k : String) (v : Agg) (k' : String) :
    mapGet (mapSet m k v) k' = if k' = k then some v else mapGet m k' := by
  unfold mapSet
  by_cases hany : m.any (fun p => p.1 == k) = true
  · rw [if_pos hany, mapGet_replace]
    simp [hany]
  · have hf : m.any (fun p => p.1 == k) = false := by
      simp only [Bool.not_eq_true] at hany
      exact hany
    rw [if_neg hany, mapGet_append_single]
    by_cases hk : k' = k
    · subst hk
      rw [any_false_get_none m k' hf]
    · simp only [if_neg hk]
      cases mapGet m k' with
      | none => rfl
      | some a => rfl

theorem any_eq_keys_mem (m : TotalsMap) (k : String) :
    m.any (fun p => p.1 == k) = true ↔ k ∈ m.map Prod.fst := by
  rw [List.any_eq_true]
  constructor
  · rintro ⟨p, hp, hb⟩
    rw [List.mem_map]
    exact ⟨p, hp, by simpa using hb⟩
  · intro hmem
    rw [List.mem_map] at hmem
    obtain ⟨p, hp, he⟩ := hmem
    exact ⟨p, hp, by simp [he]⟩

theorem keys_mapSet (m : TotalsMap) (k : String) (v : Agg) :
    (mapSet m k v).map Prod.fst =
      if m.any (fun p => p.1 == k) = true then m.map Prod.fst
      else m.map Prod.fst ++ [k] := by
  unfold mapSet
  by_cases hany : m.any (fun p => p.1 == k) = true
  · rw [if_pos hany, if_pos hany, List.map_map]
    apply List.map_congr_left
    intro p hp
    by_cases h : p.1 = k
    · simp [h]
    · have hb : (p.1 == k) = false := by simp [h]
      simp [hb, h]
  · rw [if_neg hany, if_neg hany, List.map_append]
    rfl

theorem nodup_keys_mapSet (m : TotalsMap) (k : String) (v : Agg)
    (h : (m.map Prod.fst).Nodup) : ((mapSet m k v).map Prod.fst).Nodup := by
  rw [keys_mapSet]
  by_cases hany : m.any (fun p => p.1 == k) = true
  · rw [if_pos hany]
    exact h
  · rw [if_neg hany]
    have hk : k ∉ m.map Prod.fst := by
      intro hmem
      exact hany ((any_eq_keys_mem m k).mpr hmem)
    refine List.Nodup.append h (List.nodup_singleton k) ?_
    intro a ha hb
    rw [List.mem_singleton] at hb
    exact hk (hb ▸ ha)

theorem mem_mapSet (m : TotalsMap) (k : String) (v : Agg) :
    ∀ p ∈ mapSet m k v, p.1 = k ∨ p ∈ m := by
  unfold mapSet
  by_cases hany : m.any (fun p => p.1 == k) = true
  · rw [if_pos hany]
    intro p hp
    rw [List.mem_map] at hp
    obtain ⟨q, hqm, hqe⟩ := hp
    by_cases hb : (q.1 == k) = true
    · rw [if_pos hb] at hqe
      exact Or.inl (by rw [← hqe])
    · rw [if_neg hb] at hqe
      exact Or.inr (hqe ▸ hqm)
  · rw [if_neg hany]
    intro p hp
    rw [List.mem_append, List.mem_singleton] at hp
    rcases hp with hp | hp
    · exact Or.inr hp
    · exact Or.inl (by rw [hp])

theorem foldl_inv_mem {α σ : Type} (Inv : σ → Prop) (f : σ → α → σ) :
    ∀ l : List α, (∀ s a, a ∈ l → Inv s → Inv (f s a)) →
      ∀ s, Inv s → Inv (l.foldl f s) := by
  intro l
  induction l with
  | nil => intro _ s h; exact h
  | cons a l ih =>
    intro hstep s h
    exact ih (fun s b hb => hstep s b (List.mem_cons_of_mem a hb))
      (f s a) (hstep s a (List.mem_cons_self a l) h)

theorem processPages_inv (Inv : TotalsMap → Prop)
    (hstep : ∀ m r, Inv m → Inv (processRow m r)) :
    ∀ (script : List PageResp) (ps off : Nat) (m : TotalsMap), Inv m →
      Inv (processPages ps m off script).1 := by
  intro script
  induction script with
  | nil => intro ps off m h; exact h
  | cons resp rest ih =>
    intro ps off m h
    cases resp with
    | none => exact h
    | some rows =>
      have hfold : Inv (rows.foldl processRow m) :=
        foldl_inv_mem Inv processRow rows (fun s a _ => hstep s a) m h
      by_cases hlen : rows.length = 0
      · simp only [processPages, if_pos hlen]
        exact h
      · by_cases hlt : rows.length < ps
        · simp only [processPages, if_neg hlen, if_pos hlt]
          exact hfold
        · simp only [processPages, if_neg hlen, if_neg hlt]
          exact ih ps (off + ps) (rows.foldl processRow m) hfold

theorem runWindows_inv (Inv : TotalsMap → Prop)
    (hstep : ∀ m r, Inv m → Inv (processRow m r)) (c : EngineClient) (ps : Nat) :
    ∀ (ws : List (Int × Int)) (m : TotalsMap), Inv m → Inv (runWindows c ps m ws).1 := by
  intro ws
  induction ws with
  | nil => intro m h; exact h
  | cons w ws ih =>
    intro m h
    exact ih _ (processPages_inv Inv hstep (c.pagesFor w) ps 1 m h)

theorem normalizeRow_key (r : RawRow) (c : CanonRecord) (h : normalizeRow r = some c) :
    sparkIdTest c.key = true := by
  unfold normalizeRow at h
  by_cases hs : sparkIdTest (normalizeText r.sub_id) = true
  · simp only [hs, if_true] at h
    obtain rfl := Option.some.inj h
    exact hs
  · simp only [Bool.not_eq_true] at hs
    simp [hs] at h

theorem processRow_nodup (m : TotalsMap) (r : RawRow)
    (h : (m.map Prod.fst).Nodup) : ((processRow m r).map Prod.fst).Nodup := by
  unfold processRow
  cases hn : normalizeRow r with
  | none => exact h
  | some c => exact nodup_keys_mapSet m c.key _ h

theorem processRow_good (m : TotalsMap) (r : RawRow)
    (h : ∀ p ∈ m, sparkIdTest p.1 = true) :
    ∀ p ∈ processRow m r, sparkIdTest p.1 = true := by
  unfold processRow
  cases hn : normalizeRow r with
  | none => exact h
  | some c =>
    intro p hp
    rcases mem_mapSet m c.key _ p hp with hk | hm
    · rw [hk]
      exact normalizeRow_key r c hn
    · exact h p hm

theorem engineTotals_nodup (c : EngineClient) (ps : Nat) (s e : Int) (span : Nat) :
    ((engineTotals c ps s e span).map Prod.fst).Nodup :=
  runWindows_inv (fun m => (m.map Prod.fst).Nodup)
    processRow_nodup c ps (planWindows s e span) [] List.nodup_nil

theorem engineTotals_good (c : EngineClient) (ps : Nat) (s e : Int) (span : Nat) :
    ∀ p ∈ engineTotals c ps s e span, sparkIdTest p.1 = true :=
  runWindows_inv (fun m => ∀ p ∈ m, sparkIdTest p.1 = true)
    processRow_good c ps (planWindows s e span) [] (by intro p hp; cases hp)

theorem mem_replaceFirst (st : List SparkRow) (k : String) (newRow : SparkRow) :
    ∀ row ∈ replaceFirst st k newRow, row = newRow ∨ row ∈ st := by
  induction st with
  | nil => intro row h; cases h
  | cons r st ih =>
    intro row h
    unfold replaceFirst at h
    by_cases hb : (r.spk_code == k) = true
    · rw [if_pos hb] at h
      rcases List.mem_cons.mp h with h | h
      · exact Or.inl h
      · exact Or.inr (List.mem_cons_of_mem r h)
    · rw [if_neg hb] at h
      rcases List.mem_cons.mp h with h | h
      · exact Or.inr (h ▸ List.mem_cons_self r st)
      · rcases ih row h with h | h
        · exact Or.inl h
        · exact Or.inr (List.mem_cons_of_mem r h)

theorem lifetimeWriteKey_good (P : String → Prop) (st : List SparkRow) (k : String) (v : Agg)
    (h : ∀ row ∈ st, P row.spk_code) (hk : P k) :
    ∀ row ∈ lifetimeWriteKey st k v, P row.spk_code := by
  unfold lifetimeWriteKey
  cases hg : storeGet st k with
  | none =>
    intro row hrow
    rcases List.mem_append.mp hrow with hrow | hrow
    · exact h row hrow
    · rw [List.mem_singleton] at hrow
      rw [hrow]
      exact hk
  | some ex =>
    intro row hrow
    rcases mem_replaceFirst st k (updatedRow ex v) row hrow with hnew | hmem
    · rw [hnew]
      show P ex.spk_code
      exact h ex (List.mem_of_find?_eq_some hg)
    · exact h row hmem

theorem runLifetime_good (P : String → Prop) (t : TotalsMap) (st : List SparkRow)
    (h : ∀ row ∈ st, P row.spk_code) (hkeys : ∀ p ∈ t, P p.1) :
    ∀ row ∈ runLifetime t st, P row.spk_code := by
  unfold runLifetime
  exact foldl_inv_mem (fun acc => ∀ row ∈ acc, P row.spk_code)
    (fun acc kv => lifetimeWriteKey acc kv.1 kv.2) t
    (fun acc kv hkv hacc => lifetimeWriteKey_good P acc kv.1 kv.2 hacc (hkeys kv hkv))
    st h

/-- C10: every reconciliation row ever handed to a store write carries a
key that passed the canonical-pattern test: all keys of the totals map
pass `sparkIdTest`, hence so do the keys of the rows built for the
replace-snapshot upsert, and every row in a store produced by the
accumulate-lifetime merge (from a store whose codes already pass) has a
passing code. -/
theorem C10_canonical_keys (c : EngineClient) (ps : Nat) (s e : Int) (span : Nat) (d : String) :
    (∀ p ∈ engineTotals c ps s e span, sparkIdTest p.1 = true) ∧
    (∀ row ∈ buildRows (engineTotals c ps s e span) d,
      sparkIdTest row.cake_affiliate_id = true) ∧
    (∀ st : List SparkRow, (∀ row ∈ st, sparkIdTest row.spk_code = true) →
      ∀ row ∈ runLifetime (engineTotals c ps s e span) st,
        sparkIdTest row.spk_code = true) := by
  refine ⟨engineTotals_good c ps s e span, ?_, ?_⟩
  · intro row hrow
    unfold buildRows at hrow
    rw [List.mem_map] at hrow
    obtain ⟨kv, hkv, rfl⟩ := hrow
    exact engineTotals_good c ps s e span kv hkv
  · intro st hst
    exact runLifetime_good (fun k => sparkIdTest k = true) _ st hst
      (engineTotals_good c ps s e span)

/-- C5 counterexample: the claim says a numeric field holding a
non-numeric value becomes zero, but `Number("abc")` is `NaN`, so a kept
row with `clicks = "abc"` carries `NaN` clicks, not zero. -/
theorem C5_counterexample :
    normalizeRow rowC5 = some ⟨"SPK-AAAA-BBBB", ⟨.num 0, .nan, .num 0⟩⟩ ∧
    JsNum.nan ≠ JsNum.num 0 := by decide

/-- C5 (amended): for every raw row whose key passes validation, the row
is kept (never dropped because of its numeric fields), and each numeric
field of the produced record equals the row's value when the field holds
a number, equals zero when the field is absent (null), and is `NaN` (not
zero) when the field holds a non-numeric object. -/
theorem C5_numeric_defaults (r : RawRow)
    (h : sparkIdTest (normalizeText r.sub_id) = true) :
    (∃ c, normalizeRow r = some c) ∧
    (∀ c, normalizeRow r = some c →
      (r.clicks = .null → c.val.clicks = .num 0) ∧
      (∀ n, r.clicks = .num n → c.val.clicks = .num n) ∧
      (∀ fl, r.clicks = .obj fl → c.val.clicks = .nan) ∧
      (r.conversions = .null → c.val.conversions = .num 0) ∧
      (∀ n, r.conversions = .num n → c.val.conversions = .num n) ∧
      (r.revenue = .null → c.val.revenue = .num 0) ∧
      (∀ n, r.revenue = .num n → c.val.revenue = .num n)) := by
  have hr : normalizeRow r = some ⟨normalizeText r.sub_id,
      ⟨jsNumber (jsCoalesce r.revenue (.num 0)),
       jsNumber (jsCoalesce r.clicks (.num 0)),
       jsNumber (jsCoalesce r.conversions (.num 0))⟩⟩ := by
    unfold normalizeRow
    simp [h]
  refine ⟨⟨_, hr⟩, ?_⟩
  intro c hc
  rw [hr] at hc
  obtain rfl := Option.some.inj hc
  refine ⟨?_, ?_, ?_, ?_, ?_, ?_, ?_⟩
  · intro h0; rw [h0]; rfl
  · intro n hn; rw [hn]; rfl
  · intro fl hf; rw [hf]; rfl
  · intro h0; rw [h0]; rfl
  · intro n hn; rw [hn]; rfl
  · intro h0; rw [h0]; rfl
  · intro n hn; rw [hn]; rfl

/-- C5 witness: the amended statement instantiated at a concrete kept row. -/
theorem C5_numeric_defaults_witness :
    (∃ c, normalizeRow rowC5 = some c) ∧
    (∀ c, normalizeRow rowC5 = some c →
      (rowC5.clicks = .null → c.val.clicks = .num 0) ∧
      (∀ n, rowC5.clicks = .num n → c.val.clicks = .num n) ∧
      (∀ fl, rowC5.clicks = .obj fl → c.val.clicks = .nan) ∧
      (rowC5.conversions = .null → c.val.conversions = .num 0) ∧
      (∀ n, rowC5.conversions = .num n → c.val.conversions = .num n) ∧
      (rowC5.revenue = .null → c.val.revenue = .num 0) ∧
      (∀ n, rowC5.revenue = .num n → c.val.revenue = .num n)) :=
  C5_numeric_defaults rowC5 (by decide)

theorem mapGet_accumAll (l : List CanonRecord) (m : TotalsMap) (k : String) :
    mapGet (accumAll m l) k =
      if l.filter (fun c => c.key == k) = [] then mapGet m k
      else some ((mapGet m k).getD 0 +
        ((l.filter (fun c => c.key == k)).map CanonRecord.val).sum) := by
  induction l generalizing m with
  | nil => simp [accumAll]
  | cons c l ih =>
    have hacc : accumAll m (c :: l) = accumAll (accumStep m c) l := rfl
    rw [hacc, ih]
    by_cases hc : c.key = k
    · have hb : (c.key == k) = true := by simp [hc]
      have h1 : mapGet (accumStep m c) k = some ((mapGet m k).getD 0 + c.val) := by
        unfold accumStep
        rw [mapGet_mapSet, if_pos hc.symm, hc]
      have hfc : List.filter (fun c => c.key == k) (c :: l) =
          c :: List.filter (fun c => c.key == k) l := by
        simp [List.filter_cons, hb]
      rw [hfc]
      by_cases hl : l.filter (fun c => c.key == k) = []
      · simp [hl, h1]
      · rw [if_neg hl, if_neg (by simp), h1]
        simp [add_assoc]
    · have hb : (c.key == k) = false := by simp [hc]
      have h1 : mapGet (accumStep m c) k = mapGet m k := by
        unfold accumStep
        rw [mapGet_mapSet, if_neg (fun hh => hc hh.symm)]
      have hfc : List.filter (fun c => c.key == k) (c :: l) =
          List.filter (fun c => c.key == k) l := by
        simp [List.filter_cons, hb]
      rw [hfc, h1]

/-- C7: the accumulation rule inserts the record's triple when its key is
absent and adds it componentwise to the existing entry otherwise, and the
per-key totals produced by accumulating a record sequence are invariant
under permutation of that sequence (row, page, and window order do not
matter). -/
theorem C7_aggregator (m : TotalsMap) (k : String) (l₁ l₂ : List CanonRecord)
    (hp : l₁.Perm l₂) :
    (∀ c : CanonRecord, mapGet m c.key = none →
      mapGet (accumStep m c) c.key = some c.val) ∧
    (∀ (c : CanonRecord) (a : Agg), mapGet m c.key = some a →
      mapGet (accumStep m c) c.key = some (a + c.val)) ∧
    mapGet (accumAll m l₁) k = mapGet (accumAll m l₂) k := by
  refine ⟨?_, ?_, ?_⟩
  · intro c h0
    unfold accumStep
    rw [mapGet_mapSet, if_pos rfl, h0]
    simp
  · intro c a ha
    unfold accumStep
    rw [mapGet_mapSet, if_pos rfl, ha]
    rfl
  · rw [mapGet_accumAll, mapGet_accumAll]
    have hf : (l₁.filter (fun c => c.key == k)).Perm (l₂.filter (fun c => c.key == k)) :=
      hp.filter _
    have hnil : l₁.filter (fun c => c.key == k) = [] ↔
        l₂.filter (fun c => c.key == k) = [] := by
      rw [← List.length_eq_zero, ← List.length_eq_zero, hf.length_eq]
    have hsum : ((l₁.filter (fun c => c.key == k)).map CanonRecord.val).sum =
        ((l₂.filter (fun c => c.key == k)).map CanonRecord.val).sum :=
      (hf.map CanonRecord.val).sum_eq
    by_cases h1 : l₁.filter (fun c => c.key == k) = []
    · rw [if_pos h1, if_pos (hnil.mp h1)]
    · rw [if_neg h1, if_neg (fun hh => h1 (hnil.mpr hh)), hsum]

/-- C7 witness: the statement instantiated at two concrete records with a
shared key, in both orders. -/
theorem C7_aggregator_witness :
    (∀ c : CanonRecord, mapGet [] c.key = none →
      mapGet (accumStep [] c) c.key = some c.val) ∧
    (∀ (c : CanonRecord) (a : Agg), mapGet [] c.key = some a →
      mapGet (accumStep [] c) c.key = some (a + c.val)) ∧
    mapGet (accumAll [] [recA, recB]) "SPK-AAAA-BBBB" =
      mapGet (accumAll [] [recB, recA]) "SPK-AAAA-BBBB" :=
  C7_aggregator [] "SPK-AAAA-BBBB" [recA, recB] [recB, recA]
    (List.Perm.swap recB recA [])

theorem pf_bounds (e : Int) (span : Nat) :
    ∀ (fuel : Nat) (c : Int), ∀ w ∈ planFuel fuel c e span,
      c ≤ w.1 ∧ w.1 ≤ w.2 ∧ w.2 ≤ e := by
  intro fuel
  induction fuel with
  | zero => intro c w hw; cases hw
  | succ n ih =>
    intro c w hw
    by_cases hce : c ≤ e
    · simp only [planFuel, if_pos hce] at hw
      rcases List.mem_cons.mp hw with rfl | hmem
      · refine ⟨le_refl c, ?_, ?_⟩ <;> omega
      · obtain ⟨h1, h2, h3⟩ := ih _ w hmem
        refine ⟨?_, h2, h3⟩
        have : c ≤ min (c + ((span - 1 : Nat) : Int)) e := by omega
        omega
    · simp only [planFuel, if_neg hce] at hw
      cases hw

theorem pf_span (e : Int) (span : Nat) (hspan : 1 ≤ span) :
    ∀ (fuel : Nat) (c : Int), ∀ w ∈ planFuel fuel c e span,
      w.1 ≤ w.2 ∧ w.2 - w.1 + 1 ≤ (span : Int) := by
  intro fuel
  induction fuel with
  | zero => intro c w hw; cases hw
  | succ n ih =>
    intro c w hw
    by_cases hce : c ≤ e
    · simp only [planFuel, if_pos hce] at hw
      rcases List.mem_cons.mp hw with rfl | hmem
      · constructor <;> simp <;> omega
      · exact ih _ w hmem
    · simp only [planFuel, if_neg hce] at hw
      cases hw

theorem pf_head (e : Int) (span : Nat) (fuel : Nat) (c : Int) (w : Int × Int)
    (h : (planFuel fuel c e span).head? = some w) : w.1 = c := by
  cases fuel with
  | zero => cases h
  | succ n =>
    by_cases hce : c ≤ e
    · simp only [planFuel, if_pos hce, List.head?_cons] at h
      obtain rfl := Option.some.inj h
      rfl
    · simp only [planFuel, if_neg hce] at h
      cases h

theorem pf_chain (e : Int) (span : Nat) :
    ∀ (fuel : Nat) (c : Int),
      List.Chain' (fun a b => b.1 = a.2 + 1) (planFuel fuel c e span) := by
  intro fuel
  induction fuel with
  | zero => intro c; exact List.chain'_nil
  | succ n ih =>
    intro c
    by_cases hce : c ≤ e
    · simp only [planFuel, if_pos hce]
      refine List.chain'_cons'.mpr ⟨?_, ih _⟩
      intro b hb
      have hb1 := pf_head e span n _ b (Option.mem_def.mp hb)
      simpa using hb1
    · simp only [planFuel, if_neg hce]
      exact List.chain'_nil

theorem pf_pairwise (e : Int) (span : Nat) :
    ∀ (fuel : Nat) (c : Int),
      (planFuel fuel c e span).Pairwise (fun a b => a.2 < b.1) := by
  intro fuel
  induction fuel with
  | zero => intro c; exact List.Pairwise.nil
  | succ n ih =>
    intro c
    by_cases hce : c ≤ e
    · simp only [planFuel, if_pos hce]
      refine List.Pairwise.cons ?_ (ih _)
      intro b hb
      have hb1 := (pf_bounds e span n _ b hb).1
      simp only
      omega
    · simp only [planFuel, if_neg hce]
      exact List.Pairwise.nil

theorem pf_cover (e : Int) (span : Nat) :
    ∀ (fuel : Nat) (c : Int), (e + 1 - c).toNat ≤ fuel →
      ∀ d : Int, (∃ w ∈ planFuel fuel c e span, w.1 ≤ d ∧ d ≤ w.2) ↔
        (c ≤ d ∧ d ≤ e) := by
  intro fuel
  induction fuel with
  | zero =>
    intro c hf d
    constructor
    · rintro ⟨w, hw, _⟩
      cases hw
    · rintro ⟨h1, h2⟩
      exfalso
      omega
  | succ n ih =>
    intro c hf d
    by_cases hce : c ≤ e
    · simp only [planFuel, if_pos hce]
      have hcw : c ≤ min (c + ((span - 1 : Nat) : Int)) e := by omega
      have hwe : min (c + ((span - 1 : Nat) : Int)) e ≤ e := by omega
      have ihn := ih (min (c + ((span - 1 : Nat) : Int)) e + 1) (by omega) d
      constructor
      · rintro ⟨w, hw, hd1, hd2⟩
        rcases List.mem_cons.mp hw with rfl | hmem
        · exact ⟨hd1, by omega⟩
        · have hres := ihn.mp ⟨w, hmem, hd1, hd2⟩
          exact ⟨by omega, hres.2⟩
      · rintro ⟨h1, h2⟩
        by_cases hdw : d ≤ min (c + ((span - 1 : Nat) : Int)) e
        · exact ⟨_, List.mem_cons_self _ _, h1, hdw⟩
        · obtain ⟨w, hm, hw⟩ := ihn.mpr ⟨by omega, h2⟩
          exact ⟨w, List.mem_cons_of_mem _ hm, hw⟩
    · simp only [planFuel, if_neg hce]
      constructor
      · rintro ⟨w, hw, _⟩
        cases hw
      · rintro ⟨h1, h2⟩
        exact absurd (le_trans h1 h2) hce

theorem planWindows_empty (s e : Int) (span : Nat) (h : e < s) :
    planWindows s e span = [] := by
  unfold planWindows
  have h0 : (e + 1 - s).toNat = 0 := by omega
  rw [h0]
  rfl

/-- C1: for `globalStart ≤ globalEnd` and `maxSpanDays ≥ 1`, the planned
windows are well-formed and at most `maxSpanDays` days long, consecutive
windows are contiguous (each start is the prior end plus one day), the
windows are ordered and non-overlapping, their union covers exactly
`[globalStart, globalEnd]`, and for `globalStart > globalEnd` the plan is
empty and the run issues no request at all. -/
theorem C1_window_planner (s e : Int) (span : Nat) (hspan : 1 ≤ span) :
    (∀ w ∈ planWindows s e span, w.1 ≤ w.2 ∧ w.2 - w.1 + 1 ≤ (span : Int)) ∧
    List.Chain' (fun a b => b.1 = a.2 + 1) (planWindows s e span) ∧
    (planWindows s e span).Pairwise (fun a b => a.2 < b.1) ∧
    (∀ d : Int, (∃ w ∈ planWindows s e span, w.1 ≤ d ∧ d ≤ w.2) ↔ (s ≤ d ∧ d ≤ e)) ∧
    (e < s → planWindows s e span = [] ∧
      ∀ (c : EngineClient) (ps : Nat), engineRequests c ps s e span = []) := by
  refine ⟨pf_span e span hspan _ s, pf_chain e span _ s, pf_pairwise e span _ s,
    pf_cover e span _ s (le_refl _), ?_⟩
  intro h
  refine ⟨planWindows_empty s e span h, ?_⟩
  intro c ps
  unfold engineRequests engineRun
  rw [planWindows_empty s e span h]
  rfl

/-- C1 witness: the statement instantiated at a 60-day range with a
28-day span cap. -/
theorem C1_window_planner_witness :
    (∀ w ∈ planWindows 0 59 28, w.1 ≤ w.2 ∧ w.2 - w.1 + 1 ≤ ((28 : Nat) : Int)) ∧
    List.Chain' (fun a b => b.1 = a.2 + 1) (planWindows 0 59 28) ∧
    (planWindows 0 59 28).Pairwise (fun a b => a.2 < b.1) ∧
    (∀ d : Int, (∃ w ∈ planWindows 0 59 28, w.1 ≤ d ∧ d ≤ w.2) ↔ (0 ≤ d ∧ d ≤ 59)) ∧
    ((59 : Int) < 0 → planWindows 0 59 28 = [] ∧
      ∀ (c : EngineClient) (ps : Nat), engineRequests c ps 0 59 28 = []) :=
  C1_window_planner 0 59 28 (by decide)

/-- C9: an absent (or unexpectedly shaped, hence falsy) rows container
ends pagination for the window without an error: the pagination loop
returns the totals unchanged after that single request, and the run on a
window whose first response lacks a rows container produces the same
totals as the run without that window, logging exactly one request for it
before proceeding to the remaining windows. -/
theorem C9_missing_container (c : EngineClient) (ps : Nat) (m : TotalsMap)
    (w : Int × Int) (ws : List (Int × Int)) (rest : List PageResp)
    (h : c.pagesFor w = none :: rest) :
    (∀ (off : Nat) (junk : List PageResp), processPages ps m off (none :: junk) = (m, [off])) ∧
    runWindows c ps m (w :: ws) =
      ((runWindows c ps m ws).1, (w.1, w.2, 1) :: (runWindows c ps m ws).2) := by
  constructor
  · intro off junk
    rfl
  · have hpw : processWindow c ps m w = (m, [(w.1, w.2, 1)]) := by
      unfold processWindow
      rw [h]
      rfl
    have hrw : runWindows c ps m (w :: ws) =
        ((runWindows c ps (processWindow c ps m w).1 ws).1,
         (processWindow c ps m w).2 ++ (runWindows c ps (processWindow c ps m w).1 ws).2) := rfl
    rw [hrw, hpw]
    rfl

/-- C9 witness: the statement instantiated with a scripted client whose
single window response has no rows container. -/
theorem C9_missing_container_witness :
    (∀ (off : Nat) (junk : List PageResp),
      processPages 500 [] off (none :: junk) = ([], [off])) ∧
    runWindows noRowsClient 500 [] [((0 : Int), (0 : Int))] =
      ((runWindows noRowsClient 500 [] []).1,
       ((0 : Int), (0 : Int), (1 : Nat)) :: (runWindows noRowsClient 500 [] []).2) :=
  C9_missing_container noRowsClient 500 [] (0, 0) [] [] rfl

theorem conflictEq_refl (r : ReconRow) : conflictEq r r = true := by
  simp [conflictEq]

theorem conflictEq_iff (a b : ReconRow) :
    conflictEq a b = true ↔
      a.cake_affiliate_id = b.cake_affiliate_id ∧ a.date = b.date := by
  simp [conflictEq]

theorem upsertRow_present (s : List ReconRow) (r : ReconRow) :
    (upsertRow s r).any (fun row => conflictEq row r) = true := by
  unfold upsertRow
  by_cases hany : s.any (fun row => conflictEq row r) = true
  · rw [if_pos hany]
    rw [List.any_eq_true] at hany ⊢
    obtain ⟨row, hrow, hc⟩ := hany
    exact ⟨r, List.mem_map.mpr ⟨row, hrow, by rw [if_pos hc]⟩, conflictEq_refl r⟩
  · rw [if_neg hany]
    rw [List.any_eq_true]
    exact ⟨r, List.mem_append.mpr (Or.inr (List.mem_singleton.mpr rfl)), conflictEq_refl r⟩

theorem upsertRow_entries (s : List ReconRow) (r : ReconRow) :
    ∀ row ∈ upsertRow s r, conflictEq row r = true → row = r := by
  unfold upsertRow
  by_cases hany : s.any (fun row => conflictEq row r) = true
  · rw [if_pos hany]
    intro row hrow hc
    rw [List.mem_map] at hrow
    obtain ⟨q, hq, hqe⟩ := hrow
    by_cases hb : conflictEq q r = true
    · rw [if_pos hb] at hqe
      exact hqe.symm
    · rw [if_neg hb] at hqe
      subst hqe
      exact absurd hc hb
  · rw [if_neg hany]
    intro row hrow hc
    rcases List.mem_append.mp hrow with hs | hr
    · exact absurd (List.any_eq_true.mpr ⟨row, hs, hc⟩) hany
    · exact List.mem_singleton.mp hr

theorem upsertRow_present_mono (s : List ReconRow) (r r' : ReconRow)
    (h : s.any (fun row => conflictEq row r) = true) :
    (upsertRow s r').any (fun row => conflictEq row r) = true := by
  unfold upsertRow
  by_cases hany : s.any (fun row => conflictEq row r') = true
  · rw [if_pos hany]
    rw [List.any_eq_true] at h ⊢
    obtain ⟨row, hrow, hc⟩ := h
    by_cases hb : conflictEq row r' = true
    · refine ⟨r', List.mem_map.mpr ⟨row, hrow, by rw [if_pos hb]⟩, ?_⟩
      rw [conflictEq_iff] at hc hb ⊢
      exact ⟨hb.1.symm.trans hc.1, hb.2.symm.trans hc.2⟩
    · exact ⟨row, List.mem_map.mpr ⟨row, hrow, by rw [if_neg hb]⟩, hc⟩
  · rw [if_neg hany]
    rw [List.any_eq_true] at h ⊢
    obtain ⟨row, hrow, hc⟩ := h
    exact ⟨row, List.mem_append.mpr (Or.inl hrow), hc⟩

theorem upsertRow_entries_preserved (s : List ReconRow) (r r' : ReconRow)
    (hne : conflictEq r' r = false)
    (h : ∀ row ∈ s, conflictEq row r = true → row = r) :
    ∀ row ∈ upsertRow s r', conflictEq row r = true → row = r := by
  unfold upsertRow
  by_cases hany : s.any (fun row => conflictEq row r') = true
  · rw [if_pos hany]
    intro row hrow hc
    rw [List.mem_map] at hrow
    obtain ⟨q, hq, hqe⟩ := hrow
    by_cases hb : conflictEq q r' = true
    · rw [if_pos hb] at hqe
      rw [← hqe] at hc
      rw [hne] at hc
      cases hc
    · rw [if_neg hb] at hqe
      subst hqe
      exact h q hq hc
  · rw [if_neg hany]
    intro row hrow hc
    rcases List.mem_append.mp hrow with hs | hr
    · exact h row hs hc
    · rw [List.mem_singleton] at hr
      subst hr
      rw [hne] at hc
      cases hc

theorem upsertAll_present (rs : List ReconRow) (r : ReconRow) :
    ∀ s : List ReconRow, s.any (fun row => conflictEq row r) = true →
      (upsertAll s rs).any (fun row => conflictEq row r) = true := by
  induction rs with
  | nil => intro s h; exact h
  | cons r' rest ih =>
    intro s h
    exact ih (upsertRow s r') (upsertRow_present_mono s r r' h)

theorem upsertAll_entries_preserved (rs : List ReconRow) (r : ReconRow)
    (hne : ∀ r' ∈ rs, conflictEq r' r = false) :
    ∀ s : List ReconRow, (∀ row ∈ s, conflictEq row r = true → row = r) →
      ∀ row ∈ upsertAll s rs, conflictEq row r = true → row = r := by
  induction rs with
  | nil => intro s h; exact h
  | cons r' rest ih =>
    intro s h
    exact ih (fun q hq => hne q (List.mem_cons_of_mem r' hq)) (upsertRow s r')
      (upsertRow_entries_preserved s r r' (hne r' (List.mem_cons_self r' rest)) h)

theorem upsertRow_id (s : List ReconRow) (r : ReconRow)
    (hpres : s.any (fun row => conflictEq row r) = true)
    (hent : ∀ row ∈ s, conflictEq row r = true → row = r) :
    upsertRow s r = s := by
  unfold upsertRow
  rw [if_pos hpres]
  have hcongr : ∀ row ∈ s, (if conflictEq row r = true then r else row) = id row := by
    intro row hrow
    by_cases hb : conflictEq row r = true
    · rw [if_pos hb]
      exact (hent row hrow hb).symm
    · rw [if_neg hb]
      rfl
  rw [List.map_congr_left hcongr, List.map_id]

theorem upsertAll_idem : ∀ rs : List ReconRow,
    List.Pairwise (fun a b => conflictEq b a = false) rs →
    ∀ s : List ReconRow, upsertAll (upsertAll s rs) rs = upsertAll s rs := by
  intro rs
  induction rs with
  | nil => intro _ s; rfl
  | cons r rest ih =>
    intro hnd s
    rw [List.pairwise_cons] at hnd
    obtain ⟨hhead, htail⟩ := hnd
    have hpres : (upsertAll (upsertRow s r) rest).any (fun row => conflictEq row r) = true :=
      upsertAll_present rest r (upsertRow s r) (upsertRow_present s r)
    have hent : ∀ row ∈ upsertAll (upsertRow s r) rest, conflictEq row r = true → row = r :=
      upsertAll_entries_preserved rest r hhead (upsertRow s r) (upsertRow_entries s r)
    show upsertAll (upsertRow (upsertAll (upsertRow s r) rest) r) rest =
      upsertAll (upsertRow s r) rest
    rw [upsertRow_id _ r hpres hent]
    exact ih htail (upsertRow s r)

theorem buildRows_pairwise (t : TotalsMap) (d : String)
    (h : (t.map Prod.fst).Nodup) :
    List.Pairwise (fun a b => conflictEq b a = false) (buildRows t d) := by
  unfold buildRows
  rw [List.pairwise_map]
  have h' : t.Pairwise (fun p q => p.1 ≠ q.1) := List.pairwise_map.mp h
  refine h'.imp ?_
  intro p q hne
  have hb : (q.1 == p.1) = false := by
    simp only [beq_eq_false_iff_ne, ne_eq]
    exact fun he => hne he.symm
  simp [conflictEq, hb]

/-- C2: under the replace-snapshot policy, running the engine a second
time over the same scripted input with the same snapshot date leaves the
store exactly as one run leaves it: the second upsert fully overwrites
each row written by the first run with an identical aggregate, so nothing
is doubled. -/
theorem C2_replace_idempotent (c : EngineClient) (ps : Nat) (s e : Int) (span : Nat)
    (d : String) (store : List ReconRow) :
    runReplace c ps s e span d (runReplace c ps s e span d store) =
      runReplace c ps s e span d store := by
  unfold runReplace
  by_cases hemp : (engineTotals c ps s e span).isEmpty = true
  · simp [hemp]
  · simp only [hemp, if_false]
    exact upsertAll_idem (buildRows (engineTotals c ps s e span) d)
      (buildRows_pairwise _ d (engineTotals_nodup c ps s e span)) store

theorem storeGet_cons (row : SparkRow) (st : List SparkRow) (k : String) :
    storeGet (row :: st) k = if row.spk_code = k then some row else storeGet st k := by
  by_cases h : row.spk_code = k
  · simp [storeGet, List.find?, h]
  · have hb : (row.spk_code == k) = false := by simp [h]
    simp [storeGet, List.find?, hb, h]

theorem storeGet_append_single (st : List SparkRow) (row : SparkRow) (k : String) :
    storeGet (st ++ [row]) k =
      (storeGet st k).elim (if row.spk_code = k then some row else none) some := by
  induction st with
  | nil =>
    rw [List.nil_append, storeGet_cons]
    by_cases h : row.spk_code = k <;> simp [storeGet, h]
  | cons q st ih =>
    rw [List.cons_append, storeGet_cons, storeGet_cons]
    by_cases hq : q.spk_code = k <;> simp [hq, ih]

theorem storeGet_replaceFirst_self (ex nr : SparkRow) (k : String)
    (hnr : nr.spk_code = k) :
    ∀ st : List SparkRow, storeGet st k = some ex →
      storeGet (replaceFirst st k nr) k = some nr := by
  intro st
  induction st with
  | nil => intro h; cases h
  | cons row st ih =>
    intro h
    unfold replaceFirst
    by_cases hb : (row.spk_code == k) = true
    · rw [if_pos hb, storeGet_cons, if_pos hnr]
    · rw [if_neg hb, storeGet_cons, if_neg (by simpa using hb)]
      rw [storeGet_cons, if_neg (by simpa using hb)] at h
      exact ih h

theorem storeGet_replaceFirst_other (kr k : String) (nr : SparkRow)
    (hnr : nr.spk_code ≠ k) (hne : kr ≠ k) :
    ∀ st : List SparkRow, storeGet (replaceFirst st kr nr) k = storeGet st k := by
  intro st
  induction st with
  | nil => rfl
  | cons row st ih =>
    unfold replaceFirst
    by_cases hb : (row.spk_code == kr) = true
    · rw [if_pos hb, storeGet_cons, storeGet_cons]
      have hrow : row.spk_code ≠ k := by
        have : row.spk_code = kr := by simpa using hb
        rw [this]
        exact hne
      rw [if_neg hrow, if_neg hnr]
    · rw [if_neg hb, storeGet_cons, storeGet_cons, ih]

theorem storeGet_some_code (st : List SparkRow) (k : String) (ex : SparkRow)
    (h : storeGet st k = some ex) : ex.spk_code = k := by
  have h2 : st.find? (fun row => row.spk_code == k) = some ex := h
  simpa using List.find?_some h2

theorem storeGet_lifetimeWriteKey_self (st : List SparkRow) (k : String) (v : Agg) :
    storeGet (lifetimeWriteKey st k v) k =
      some ((storeGet st k).elim
        ⟨k, v.revenue, v.clicks, v.conversions⟩ (fun ex => updatedRow ex v)) := by
  unfold lifetimeWriteKey
  cases hg : storeGet st k with
  | some ex =>
    have hcode : (updatedRow ex v).spk_code = k := by
      show ex.spk_code = k
      exact storeGet_some_code st k ex hg
    rw [storeGet_replaceFirst_self ex (updatedRow ex v) k hcode st hg]
    rfl
  | none =>
    rw [storeGet_append_single, hg]
    simp

theorem storeGet_lifetimeWriteKey_other (st : List SparkRow) (kw k : String) (v : Agg)
    (hne : kw ≠ k) :
    storeGet (lifetimeWriteKey st kw v) k = storeGet st k := by
  unfold lifetimeWriteKey
  cases hg : storeGet st kw with
  | some ex =>
    have hex : ex.spk_code = kw := storeGet_some_code st kw ex hg
    have hnr : (updatedRow ex v).spk_code ≠ k := by
      show ex.spk_code ≠ k
      rw [hex]
      exact hne
    exact storeGet_replaceFirst_other kw k (updatedRow ex v) hnr hne st
  | none =>
    rw [storeGet_append_single]
    cases hgk : storeGet st k with
    | some a => rfl
    | none =>
      have hc : (SparkRow.mk kw v.revenue v.clicks v.conversions).spk_code ≠ k := hne
      simp [hc]

theorem storeGet_runLifetime_other : ∀ (t : TotalsMap) (k : String),
    (∀ q ∈ t, q.1 ≠ k) → ∀ st : List SparkRow,
      storeGet (runLifetime t st) k = storeGet st k := by
  intro t
  induction t with
  | nil => intro k _ st; rfl
  | cons p t ih =>
    intro k hq st
    have e1 : runLifetime (p :: t) st = runLifetime t (lifetimeWriteKey st p.1 p.2) := rfl
    rw [e1, ih k (fun q hqt => hq q (List.mem_cons_of_mem p hqt))]
    exact storeGet_lifetimeWriteKey_other st p.1 k p.2 (hq p (List.mem_cons_self p t))

theorem storeGet_runLifetime : ∀ t : TotalsMap, (t.map Prod.fst).Nodup →
    ∀ (k : String) (v : Agg), (k, v) ∈ t → ∀ st : List SparkRow,
      storeGet (runLifetime t st) k =
        some ((storeGet st k).elim
          ⟨k, v.revenue, v.clicks, v.conversions⟩ (fun ex => updatedRow ex v)) := by
  intro t
  induction t with
  | nil => intro _ k v hmem; cases hmem
  | cons p t ih =>
    intro hnd k v hmem st
    rw [List.map_cons, List.nodup_cons] at hnd
    obtain ⟨hp, hndt⟩ := hnd
    rcases List.mem_cons.mp hmem with heq | hmem2
    · subst heq
      have hother : ∀ q ∈ t, q.1 ≠ k := by
        intro q hqt hqk
        apply hp
        rw [List.mem_map]
        exact ⟨q, hqt, hqk⟩
      have e1 : runLifetime ((k, v) :: t) st =
          runLifetime t (lifetimeWriteKey st k v) := rfl
      rw [e1, storeGet_runLifetime_other t k hother]
      exact storeGet_lifetimeWriteKey_self st k v
    · have hkt : k ∈ t.map Prod.fst := List.mem_map.mpr ⟨(k, v), hmem2, rfl⟩
      have hpk : p.1 ≠ k := fun he => hp (he ▸ hkt)
      have e1 : runLifetime (p :: t) st = runLifetime t (lifetimeWriteKey st p.1 p.2) := rfl
      rw [e1, ih hndt k v hmem2 (lifetimeWriteKey st p.1 p.2),
        storeGet_lifetimeWriteKey_other st p.1 k p.2 hpk]

theorem jsOr0_add_self (x : JsNum) : jsOr0 x + x = x + x := by
  cases x <;> rfl

theorem mapGet_some_mem (m : TotalsMap) (k : String) (v : Agg)
    (h : mapGet m k = some v) : (k, v) ∈ m := by
  unfold mapGet at h
  cases hf : m.find? (fun p => p.1 == k) with
  | none => rw [hf] at h; cases h
  | some p =>
    rw [hf] at h
    have hp1 : p.1 = k := by simpa using List.find?_some hf
    have hp2 : p.2 = v := Option.some.inj h
    have hpm : p ∈ m := List.mem_of_find?_eq_some hf
    have : p = (k, v) := by
      rw [← hp1, ← hp2]
    exact this ▸ hpm

/-- C8: under the accumulate-lifetime policy the writer reads the stored
row, adds this run's totals and writes the sum back when the key exists,
and inserts a row seeded with this run's totals when it does not; hence
for a key absent before the first run, one engine run stores exactly this
run's totals and a second identical run leaves the stored totals at
exactly double the single-run value. -/
theorem C8_accumulate_doubling (c : EngineClient) (ps : Nat) (s e : Int) (span : Nat)
    (st : List SparkRow) (k : String) (v : Agg)
    (hk : mapGet (engineTotals c ps s e span) k = some v)
    (h0 : storeGet st k = none) :
    (∀ (st' : List SparkRow) (ex : SparkRow), storeGet st' k = some ex →
      storeGet (lifetimeWriteKey st' k v) k = some (updatedRow ex v)) ∧
    storeGet (runAccumulate c ps s e span st) k =
      some ⟨k, v.revenue, v.clicks, v.conversions⟩ ∧
    storeGet (runAccumulate c ps s e span (runAccumulate c ps s e span st)) k =
      some ⟨k, v.revenue + v.revenue, v.clicks + v.clicks,
            v.conversions + v.conversions⟩ := by
  have hmem : (k, v) ∈ engineTotals c ps s e span := mapGet_some_mem _ k v hk
  have hnd := engineTotals_nodup c ps s e span
  have hemp : ¬((engineTotals c ps s e span).isEmpty = true) := by
    intro he
    rw [List.isEmpty_iff] at he
    rw [he] at hmem
    cases hmem
  have hrunAcc : runAccumulate c ps s e span st =
      runLifetime (engineTotals c ps s e span) st := by
    unfold runAccumulate
    rw [if_neg hemp]
  have hrun1 : storeGet (runAccumulate c ps s e span st) k =
      some ⟨k, v.revenue, v.clicks, v.conversions⟩ := by
    rw [hrunAcc, storeGet_runLifetime _ hnd k v hmem st, h0]
    rfl
  refine ⟨?_, hrun1, ?_⟩
  · intro st' ex hex
    rw [storeGet_lifetimeWriteKey_self st' k v, hex]
    rfl
  · have hrunAcc2 : runAccumulate c ps s e span (runAccumulate c ps s e span st) =
        runLifetime (engineTotals c ps s e span) (runAccumulate c ps s e span st) := by
      unfold runAccumulate
      rw [if_neg hemp]
    rw [hrunAcc2, storeGet_runLifetime _ hnd k v hmem _, hrun1]
    show some (updatedRow ⟨k, v.revenue, v.clicks, v.conversions⟩ v) = _
    simp [updatedRow, jsOr0_add_self]

/-- C8 witness: the statement instantiated with a scripted client whose
single page holds one valid row, starting from an empty store. -/
theorem C8_accumulate_doubling_witness :
    (∀ (st' : List SparkRow) (ex : SparkRow), storeGet st' "SPK-AAAA-0001" = some ex →
      storeGet (lifetimeWriteKey st' "SPK-AAAA-0001" ⟨.num 0, .num 1, .num 0⟩)
        "SPK-AAAA-0001" = some (updatedRow ex ⟨.num 0, .num 1, .num 0⟩)) ∧
    storeGet (runAccumulate oneRowClient 500 0 0 28 []) "SPK-AAAA-0001" =
      some ⟨"SPK-AAAA-0001", JsNum.num 0, JsNum.num 1, JsNum.num 0⟩ ∧
    storeGet (runAccumulate oneRowClient 500 0 0 28
        (runAccumulate oneRowClient 500 0 0 28 [])) "SPK-AAAA-0001" =
      some ⟨"SPK-AAAA-0001", JsNum.num 0 + JsNum.num 0, JsNum.num 1 + JsNum.num 1,
            JsNum.num 0 + JsNum.num 0⟩ :=
  C8_accumulate_doubling oneRowClient 500 0 0 28 [] "SPK-AAAA-0001"
    ⟨.num 0, .num 1, .num 0⟩ (by decide) rfl

end CakeSync
